import Mathlib

/-!
# Verification of the perceptronix weight / table / perceptron core

This file gives a shallow embedding, in Lean 4, of the core data
structures and algorithms of the perceptronix library:

* `AvgWeight` embeds `AveragedWeightTpl` (weight.h): a trainable weight
  with a lazily-maintained running sum used for weight averaging.
  The C++ class is a template over the weight type `T` (specialised at
  `int32_t`); we embed it at the unbounded integer instantiation `Int`,
  and machine time (`uint64_t`) as `Nat`.  The library's contract is
  that `Freshen` is only ever invoked with non-decreasing times, so the
  truncated natural subtraction `t - w.time` coincides with the C++
  unsigned subtraction on every contract-respecting execution.
* inner/outer weight tables (table.h) as lists (dense `valarray`) and
  association lists (sparse `unordered_map`, iteration order modelled
  by list order).
* the binomial and multinomial averaging perceptrons
  (binomial_perceptron.h / multinomial_perceptron.h).
* the greedy sequential decoder (`GreedyPredict` / `GreedyTrain`).
* the Python-facing model wrapper guards (`train` / `write` of the
  multinomial classifiers in the Cython binding).

Theorems at the end of the file settle the specification claims about
this code.
-/

/-- Embeds `AveragedWeightTpl<T>` (weight.h): the current trainable
value `weight_`, the lazily accumulated `summed_weight_`, and the last
freshening time `time_`. -/
structure AvgWeight where
  weight : Int
  summed : Int
  time : Nat
deriving Repr, DecidableEq

namespace AvgWeight

/-- `AveragedWeightTpl::Freshen(time)`: advance the accumulated sum by
`(time - time_) * weight_`, then set `time_ = time`. -/
def Freshen (w : AvgWeight) (t : Nat) : AvgWeight :=
  { weight := w.weight
    summed := w.summed + ((t - w.time : Nat) : Int) * w.weight
    time := t }

/-- `AveragedWeightTpl::Update(tau, time)`: freshen, then bump the
current value by `tau`. -/
def Update (w : AvgWeight) (tau : Int) (t : Nat) : AvgWeight :=
  let w' := w.Freshen t
  { w' with weight := w'.weight + tau }

/-- `AveragedWeightTpl::GetAverage(time)`: freshen to `time`, then
return `summed_weight_ / time_` as a floating-point quotient.  The C++
code performs this division unconditionally; when the divisor `time_`
is `0` the IEEE division yields no finite numeric result (NaN or an
infinity), which we model as `none`.  When `time_` is nonzero the
quotient is exact over the unbounded instantiation, modelled in `ℚ`. -/
def GetAverage (w : AvgWeight) (t : Nat) : Option Rat :=
  let w' := w.Freshen t
  if w'.time = 0 then none else some ((w'.summed : Rat) / (w'.time : Rat))

end AvgWeight

/-- The default-constructed averaged weight `AveragedWeight aw(0)`
of the documented training workflow: value `0`, accumulated sum `0`,
time `0` (the constructor's `Freshen(0)` is a no-op). -/
def initAveragedWeight : AvgWeight := ⟨0, 0, 0⟩

/-- Apply a history of `Update(tau, time)` calls, left to right. -/
def applyUpdates (upds : List (Int × Nat)) (w : AvgWeight) : AvgWeight :=
  upds.foldl (fun w p => w.Update p.1 p.2) w

/-- The value a naive, non-lazy simulation holds at unit time `u`: the
sum of all update magnitudes whose update time has already passed
(an update at time `t` is in force on the interval `[t, t+1)`). -/
def valueAt (upds : List (Int × Nat)) (u : Nat) : Int :=
  ((upds.filter (fun p => p.2 ≤ u)).map Prod.fst).sum

/-- The naive, non-lazy simulation of weight averaging: at every unit
time step it adds the value currently in force to a running sum. -/
def naiveSum (upds : List (Int × Nat)) : Nat → Int
  | 0 => 0
  | t + 1 => naiveSum upds t + valueAt upds t

/-- `SparseInnerTableTpl::kDefaultWeight`: a value-initialised
(all-zero) weight. -/
def kDefaultWeight : AvgWeight := ⟨0, 0, 0⟩

/-- A sparse inner table (`SparseInnerTableTpl`, an `unordered_map`
from string features to weights), modelled as an association list;
the list order models the map's iteration order, with insertion
appending at the end. -/
abbrev SparseInnerTable := List (String × AvgWeight)

/-- `SparseInnerTableTpl::operator[] const`: find the key; a missing
key yields `kDefaultWeight`.  The accessor is `const`, so the table is
returned unchanged alongside the weight read. -/
def sparseConstGet (tbl : SparseInnerTable) (f : String) : AvgWeight × SparseInnerTable :=
  match tbl.find? (fun p => p.1 == f) with
  | some p => (p.2, tbl)
  | none => (kDefaultWeight, tbl)

/-- `SparseInnerTableTpl::operator[]` (mutable): `unordered_map`
`operator[]` semantics — a missing key is inserted with a
default-constructed (zero) weight.  Returns the addressed weight and
the possibly-extended table. -/
def sparseMutGet (tbl : SparseInnerTable) (f : String) : AvgWeight × SparseInnerTable :=
  match tbl.find? (fun p => p.1 == f) with
  | some p => (p.2, tbl)
  | none => (kDefaultWeight, tbl ++ [(f, kDefaultWeight)])

/-- `table_[f].Update(...)` through the mutable accessor: the addressed
entry (inserted first when missing, as in `sparseMutGet`) is modified
in place. -/
def sparseModify (tbl : SparseInnerTable) (f : String) (g : AvgWeight → AvgWeight) :
    SparseInnerTable :=
  match tbl.find? (fun p => p.1 == f) with
  | some _ => tbl.map (fun p => if p.1 == f then (p.1, g p.2) else p)
  | none => tbl ++ [(f, g kDefaultWeight)]

/-- Embeds `BinomialAveragingPerceptronTpl<SparseInnerTableTpl>`
(binomial_perceptron.h): a bias weight, a sparse inner table, the
margin constant `c_` (an `int`) and the clock `time_`. -/
structure BinomialAveragingPerceptron where
  bias : AvgWeight
  table : SparseInnerTable
  c : Int
  time : Nat
deriving Repr, DecidableEq

namespace BinomialAveragingPerceptron

/-- `BinomialPerceptronBaseTpl::Score`: a copy of the bias accumulated,
via `WeightTpl::operator+=` (which only touches the `weight_`
component), with the read-only table weights of the bundle. -/
def Score (m : BinomialAveragingPerceptron) (fb : List String) : Int :=
  fb.foldl (fun acc f => acc + (sparseConstGet m.table f).1.weight) m.bias.weight

/-- `BinomialPerceptronBaseTpl::Predict`: `Score(fb).Get() > 0`. -/
def Predict (m : BinomialAveragingPerceptron) (fb : List String) : Bool :=
  decide (0 < m.Score fb)

/-- `BinomialAveragingPerceptronTpl::Tick(step)`. -/
def Tick (m : BinomialAveragingPerceptron) (step : Nat) : BinomialAveragingPerceptron :=
  { m with time := m.time + step }

/-- `BinomialAveragingPerceptronTpl::Update`: `tau = y ? +1 : -1`;
updates the bias and each bundle feature at the current time (the
`yhat` argument is ignored in the binomial case). -/
def Update (m : BinomialAveragingPerceptron) (fb : List String) (y _yhat : Bool) :
    BinomialAveragingPerceptron :=
  let tau : Int := if y then 1 else -1
  { m with
    bias := m.bias.Update tau m.time
    table := fb.foldl (fun tbl f => sparseModify tbl f (fun w => w.Update tau m.time)) m.table }

/-- `BinomialAveragingPerceptronTpl::Train`.  The margin test
`static_cast<int>(std::abs(score.Get()) / fb.size()) < c_` divides the
(non-negative) absolute score by the unsigned bundle length, a
truncating integer division; on the unbounded instantiation the final
`static_cast<int>` is value-preserving.  An empty bundle makes the C++
division undefined (divisor `0`); callers pass non-empty bundles. -/
def Train (m : BinomialAveragingPerceptron) (fb : List String) (y : Bool) :
    Bool × BinomialAveragingPerceptron :=
  let score := m.Score fb
  let yhat : Bool := decide (0 < score)
  let m' :=
    if y ≠ yhat then m.Update fb y yhat
    else if m.c ≠ 0 ∧ ((score.natAbs / fb.length : Nat) : Int) < m.c then m.Update fb y yhat
    else m
  (y == yhat, m'.Tick 1)

end BinomialAveragingPerceptron


/-- A dense inner table (`DenseInnerTableTpl`, a `valarray` of weights
indexed by label), as a list. -/
abbrev DenseInnerTable := List AvgWeight

/-- `DenseInnerTableTpl::AddWeights`: skip an empty argument, else
elementwise `operator+=` of the base `WeightTpl`, which accumulates
only the `weight_` components (the `valarray` contract requires equal
sizes). -/
def denseAddWeights (a b : DenseInnerTable) : DenseInnerTable :=
  if b.length = 0 then a
  else List.zipWith (fun x y => { x with weight := x.weight + y.weight }) a b

/-- `std::max_element` with comparator `lt`: scan left to right keeping
the current maximum and replacing it only when strictly beaten, so the
first maximal element is returned. -/
def maxElement {α : Type} (lt : α → α → Bool) : List α → Option α
  | [] => none
  | x :: xs => some (xs.foldl (fun best y => if lt best y then y else best) x)

/-- `DenseInnerTableTpl::ArgMax()`:
`std::distance(cbegin(), Max())` — the index of the first maximal
weight under `WeightTpl::operator<` (which compares the `weight_`
components); for an empty table `Max()` is `end()` and the distance is
`0`. -/
def denseArgMax (tbl : DenseInnerTable) : Nat :=
  match maxElement (fun p q => decide (p.2.weight < q.2.weight)) tbl.enum with
  | some p => p.1
  | none => 0

/-- `SparseInnerTableTpl::ArgMax()`: the empty string place-keeper for
an empty table, else the key of the first maximal entry under the
comparator on the mapped weights. -/
def sparseArgMax (tbl : SparseInnerTable) : String :=
  match maxElement (fun p q => decide (p.2.weight < q.2.weight)) tbl with
  | some p => p.1
  | none => ""

/-- `inner[j].Update(tau, time)` on a dense inner table: the `valarray`
element is modified in place (indexing out of range is a C++ contract
violation; the model's `List.set` / `List.getD` are then inert). -/
def denseUpdateAt (tbl : DenseInnerTable) (j : Nat) (tau : Int) (t : Nat) : DenseInnerTable :=
  tbl.set j ((tbl.getD j kDefaultWeight).Update tau t)

/-- Embeds `MultinomialAveragingPerceptronTpl<DenseOuterTableTpl>`
(multinomial_perceptron.h): a bias inner table, the outer table (one
inner table per feature), the margin constant `c_` (an `int`), and the
clock `time_`. -/
structure MultinomialAveragingPerceptron where
  bias : DenseInnerTable
  table : List DenseInnerTable
  c : Int
  time : Nat
deriving Repr, DecidableEq

namespace MultinomialAveragingPerceptron

/-- `MultinomialPerceptronBaseTpl::Score`: a copy of the bias inner
table, accumulating `table_[f]` (`AddWeights`) for each bundle
feature.  Dense outer indexing out of range is a contract violation in
the C++ (`valarray`); the model's out-of-range read yields the empty
inner table, which `AddWeights` skips. -/
def Score (m : MultinomialAveragingPerceptron) (fb : List Nat) : DenseInnerTable :=
  fb.foldl (fun inner f => denseAddWeights inner (m.table.getD f [])) m.bias

/-- `MultinomialPerceptronBaseTpl::Predict`: arg-max of the scores. -/
def Predict (m : MultinomialAveragingPerceptron) (fb : List Nat) : Nat :=
  denseArgMax (m.Score fb)

/-- `MultinomialAveragingPerceptronTpl::Tick(step)`. -/
def Tick (m : MultinomialAveragingPerceptron) (step : Nat) : MultinomialAveragingPerceptron :=
  { m with time := m.time + step }

/-- `MultinomialAveragingPerceptronTpl::Update`: bump label `y` by `+1`
and label `yhat` by `-1`, in the bias and in each bundle feature's
inner table, at the current time. -/
def Update (m : MultinomialAveragingPerceptron) (fb : List Nat) (y yhat : Nat) :
    MultinomialAveragingPerceptron :=
  { m with
    bias := denseUpdateAt (denseUpdateAt m.bias y 1 m.time) yhat (-1) m.time
    table := fb.foldl (fun tb f =>
      tb.set f (denseUpdateAt (denseUpdateAt (tb.getD f []) y 1 m.time) yhat (-1) m.time))
      m.table }

/-- `MultinomialAveragingPerceptronTpl::Train`.  In the margin test the
`int` margin is divided by the unsigned bundle length
(`margin / fb.size()`, a truncating division); the margin
`score[arg-max] - score[y]` is non-negative on the branch where the
test runs, so the C++ int-to-`size_t` conversion is value-preserving
(modelled `Int.toNat`), and the final `static_cast<int>` is
value-preserving on the unbounded instantiation.  An empty bundle
makes the C++ division undefined (divisor `0`); callers pass non-empty
bundles. -/
def Train (m : MultinomialAveragingPerceptron) (fb : List Nat) (y : Nat) :
    Bool × MultinomialAveragingPerceptron :=
  let scores := m.Score fb
  let yhat := denseArgMax scores
  let m' :=
    if y ≠ yhat then m.Update fb y yhat
    else if m.c ≠ 0 then
      let margin :=
        (scores.getD yhat kDefaultWeight).weight - (scores.getD y kDefaultWeight).weight
      if ((margin.toNat / fb.length : Nat) : Int) < m.c then m.Update fb y yhat else m
    else m
  (y == yhat, m'.Tick 1)

end MultinomialAveragingPerceptron

/-- The classifier interface the greedy decoder templates (decoder.h)
are instantiated over: `Predict`, `Update` and `Tick` on a classifier
state `S` with features `F` and labels `L`. -/
structure SeqClassifier (S F L : Type) where
  Predict : S → List F → L
  Update : S → List F → L → L → S
  Tick : S → Nat → S

/-- `GreedyPredict` (decoder.h): left to right, each position's
combined vector is the transition features of the already-emitted
predictions followed by that position's emission features; the
classifier predicts on the combined vector.  Returns the combined
vectors and the predicted labels. -/
def GreedyPredict {S F L : Type} (cl : SeqClassifier S F L)
    (tfunctor : List L → List F) (classifier : S)
    (evectors : List (List F)) : List (List F) × List L :=
  evectors.foldl
    (fun acc evector =>
      let cvector := tfunctor acc.2 ++ evector
      (acc.1 ++ [cvector], acc.2 ++ [cl.Predict classifier cvector]))
    ([], [])

/-- The inference-only `GreedyPredict` overload, which hides the
combined vectors. -/
def GreedyPredictLabels {S F L : Type} (cl : SeqClassifier S F L)
    (tfunctor : List L → List F) (classifier : S)
    (evectors : List (List F)) : List L :=
  (GreedyPredict cl tfunctor classifier evectors).2

/-- `GreedyTrain` (decoder.h): one greedy prediction pass, then a loop
over the positions counting the correct ones and invoking the
classifier's `Update(cvector, y, yhat)` at mismatches; finally
`Tick(size)`.  The C++ asserts `evectors.size() == ys.size()`; under
that contract the position-wise traversal is modelled by zipping. -/
def GreedyTrain {S F L : Type} [DecidableEq L] (cl : SeqClassifier S F L)
    (tfunctor : List L → List F)
    (evectors : List (List F)) (ys : List L) (classifier : S) : Nat × S :=
  let pr := GreedyPredict cl tfunctor classifier evectors
  let res := (ys.zip (pr.2.zip pr.1)).foldl
    (fun acc t =>
      if t.1 = t.2.1 then (acc.1 + 1, acc.2)
      else (acc.1, cl.Update acc.2 t.2.2 t.1 t.2.1))
    (0, classifier)
  (res.1, cl.Tick res.2 evectors.length)

/-- The decoder instantiated at the multinomial averaging
perceptron. -/
def multinomialSeqClassifier :
    SeqClassifier MultinomialAveragingPerceptron Nat Nat :=
  ⟨MultinomialAveragingPerceptron.Predict,
   MultinomialAveragingPerceptron.Update,
   MultinomialAveragingPerceptron.Tick⟩

/-- The recoverable operation-sequencing error raised by the Python
binding (`PerceptronixOpError`). -/
inductive OpError where
  | alreadyAveraged
  | mustAverageFirst
deriving Repr, DecidableEq

/-- The frozen multinomial perceptron
(`MultinomialPerceptronTpl`, plain `Weight` contents produced by
averaging). -/
structure MultinomialPerceptron where
  bias : List Rat
  table : List (List Rat)
deriving Repr, DecidableEq

/-- The `MultinomialModel` wrapper state (multinomial_model.h): the
averaging perceptron is present until `Average()` swaps it for the
frozen perceptron; `Averaged()` is `aperceptron_.get() == nullptr`. -/
structure MultinomialModel where
  aperceptron : Option MultinomialAveragingPerceptron
  perceptron : Option MultinomialPerceptron
deriving Repr, DecidableEq

/-- `MultinomialModel::Averaged()`. -/
def MultinomialModel.Averaged (m : MultinomialModel) : Bool :=
  m.aperceptron.isNone

/-- The binding's `train(feats, label)` (perceptronix.pyx): raises
`PerceptronixOpError("Model already averaged")` before touching the
model when it is frozen; otherwise delegates to the averaging
perceptron's `Train`.  The returned pair carries the wrapper state
(unchanged on error) alongside the outcome. -/
def MultinomialModel.train (m : MultinomialModel) (fb : List Nat) (y : Nat) :
    MultinomialModel × Except OpError Bool :=
  match m.aperceptron with
  | none => (m, Except.error OpError.alreadyAveraged)
  | some ap =>
    let r := ap.Train fb y
    ({ m with aperceptron := some r.2 }, Except.ok r.1)

/-- The binding's `write(filename, metadata)` (perceptronix.pyx):
raises `PerceptronixOpError("Must average model first")` when the
model has not been averaged; otherwise serialises the frozen
perceptron (the I/O action is abstracted).  `Write` is `const`: the
wrapper state is returned unchanged in both cases. -/
def MultinomialModel.write (m : MultinomialModel) :
    MultinomialModel × Except OpError Unit :=
  if m.Averaged then (m, Except.ok ()) else (m, Except.error OpError.mustAverageFirst)


/-- Modelled from claim C10's comparator: a pure freshen, to the given
model's current time, of exactly the affected weights — `bias[y]` and
`table[f][y]` for each bundle feature `f` — touching nothing else. -/
def freshenAffected (m : MultinomialAveragingPerceptron) (fb : List Nat) (y : Nat) :
    MultinomialAveragingPerceptron :=
  { m with
    bias := m.bias.set y ((m.bias.getD y kDefaultWeight).Freshen m.time)
    table := fb.foldl (fun tb f =>
      tb.set f ((tb.getD f []).set y (((tb.getD f []).getD y kDefaultWeight).Freshen m.time)))
      m.table }

/-! ## Theorems -/

lemma valueAt_of_forall_le (upds : List (Int × Nat)) (u : Nat)
    (h : ∀ p ∈ upds, p.2 ≤ u) :
    valueAt upds u = (upds.map Prod.fst).sum := by
  unfold valueAt
  rw [List.filter_eq_self.2 (fun p hp => by simpa using h p hp)]

lemma naiveSum_add_of_forall_le (upds : List (Int × Nat)) (m : Nat)
    (h : ∀ p ∈ upds, p.2 ≤ m) (k : Nat) :
    naiveSum upds (m + k) = naiveSum upds m + k * (upds.map Prod.fst).sum := by
  induction k with
  | zero => simp
  | succ k ih =>
    have hv : valueAt upds (m + k) = (upds.map Prod.fst).sum :=
      valueAt_of_forall_le upds (m + k) (fun p hp => (h p hp).trans (Nat.le_add_right m k))
    show naiveSum upds (m + k) + valueAt upds (m + k) = _
    rw [ih, hv]
    push_cast
    ring

lemma valueAt_append_of_lt (upds : List (Int × Nat)) (tau : Int) (t u : Nat)
    (h : u < t) :
    valueAt (upds ++ [(tau, t)]) u = valueAt upds u := by
  unfold valueAt
  rw [List.filter_append]
  have : List.filter (fun p => decide (p.2 ≤ u)) [(tau, t)] = [] := by
    simp [List.filter, Nat.not_le.2 h]
  simp [this]

lemma naiveSum_append_of_le (upds : List (Int × Nat)) (tau : Int) (t : Nat) :
    ∀ n, n ≤ t → naiveSum (upds ++ [(tau, t)]) n = naiveSum upds n := by
  intro n
  induction n with
  | zero => intro _; rfl
  | succ n ih =>
    intro hn
    show naiveSum (upds ++ [(tau, t)]) n + valueAt (upds ++ [(tau, t)]) n = _
    rw [ih (Nat.le_of_succ_le hn), valueAt_append_of_lt upds tau t n (Nat.lt_of_succ_le hn)]
    rfl

/-- Invariant of a sorted update history applied to the fresh weight:
the last-freshened time dominates every update time (and is one of
them, unless the history is empty), the current value is the sum of
all magnitudes, and the accumulated sum agrees with the naive unit-step
simulation evaluated at the last-freshened time. -/
lemma applyUpdates_inv (upds : List (Int × Nat))
    (hsorted : upds.Pairwise (fun p q => p.2 ≤ q.2)) :
    (∀ p ∈ upds, p.2 ≤ (applyUpdates upds initAveragedWeight).time)
    ∧ ((applyUpdates upds initAveragedWeight).time = 0
        ∨ ∃ p ∈ upds, (applyUpdates upds initAveragedWeight).time = p.2)
    ∧ (applyUpdates upds initAveragedWeight).weight = (upds.map Prod.fst).sum
    ∧ (applyUpdates upds initAveragedWeight).summed
        = naiveSum upds (applyUpdates upds initAveragedWeight).time := by
  induction upds using List.reverseRecOn with
  | nil => exact ⟨by simp, Or.inl rfl, rfl, rfl⟩
  | append_singleton l p ih =>
    obtain ⟨tau, t⟩ := p
    have hsl : l.Pairwise (fun p q => p.2 ≤ q.2) :=
      (List.pairwise_append.1 hsorted).1
    have hlt : ∀ p ∈ l, p.2 ≤ t := by
      intro p hp
      exact (List.pairwise_append.1 hsorted).2.2 p hp (tau, t) (by simp)
    obtain ⟨ihtimes, ihlast, ihw, ihs⟩ := ih hsl
    set w := applyUpdates l initAveragedWeight with hw
    have happ : applyUpdates (l ++ [(tau, t)]) initAveragedWeight = w.Update tau t := by
      unfold applyUpdates
      rw [List.foldl_append]
      rfl
    have hwt : w.time ≤ t := by
      rcases ihlast with h0 | ⟨q, hq, hqt⟩
      · omega
      · exact hqt ▸ hlt q hq
    have htime : (w.Update tau t).time = t := rfl
    refine ⟨?_, ?_, ?_, ?_⟩
    · intro q hq
      rw [happ, htime]
      rcases List.mem_append.1 hq with h | h
      · exact hlt q h
      · simp at h
        simp [h]
    · right
      exact ⟨(tau, t), by simp, by rw [happ, htime]⟩
    · rw [happ]
      show w.weight + tau = _
      rw [ihw]
      simp
    · rw [happ, htime]
      show w.summed + ((t - w.time : Nat) : Int) * w.weight = _
      rw [ihw, ihs]
      have hsplit : naiveSum l (w.time + (t - w.time))
          = naiveSum l w.time + ((t - w.time : Nat) : Int) * (l.map Prod.fst).sum := by
        rw [naiveSum_add_of_forall_le l w.time ihtimes (t - w.time)]
      rw [Nat.add_sub_cancel' hwt] at hsplit
      rw [← hsplit, ← naiveSum_append_of_le l tau t t (Nat.le_refl t)]

/-- Time-weighted averaging correctness: the lazily-maintained
`GetAverage` agrees with the naive unit-step simulation. -/
theorem GetAverage_eq_naive (upds : List (Int × Nat)) (T : Nat)
    (hsorted : upds.Pairwise (fun p q => p.2 ≤ q.2))
    (hle : ∀ p ∈ upds, p.2 ≤ T) (hT : 0 < T) :
    (applyUpdates upds initAveragedWeight).GetAverage T
      = some ((naiveSum upds T : Rat) / (T : Rat)) := by
  obtain ⟨htimes, hlast, hw, hs⟩ := applyUpdates_inv upds hsorted
  set w := applyUpdates upds initAveragedWeight with hwdef
  have hwT : w.time ≤ T := by
    rcases hlast with h0 | ⟨q, hq, hqt⟩
    · omega
    · exact hqt ▸ hle q hq
  have hsummed : (w.Freshen T).summed = naiveSum upds T := by
    show w.summed + ((T - w.time : Nat) : Int) * w.weight = _
    rw [hw, hs]
    have hsplit : naiveSum upds (w.time + (T - w.time))
        = naiveSum upds w.time + ((T - w.time : Nat) : Int) * (upds.map Prod.fst).sum :=
      naiveSum_add_of_forall_le upds w.time htimes (T - w.time)
    rw [Nat.add_sub_cancel' hwT] at hsplit
    rw [← hsplit]
  show (if (w.Freshen T).time = 0 then none
      else some (((w.Freshen T).summed : Rat) / ((w.Freshen T).time : Rat)))
    = some ((naiveSum upds T : Rat) / (T : Rat))
  have htime : (w.Freshen T).time = T := rfl
  rw [htime, hsummed, if_neg (Nat.pos_iff_ne_zero.1 hT)]

lemma binomialUpdate_time (m : BinomialAveragingPerceptron)
    (fb : List String) (y yhat : Bool) :
    (m.Update fb y yhat).time = m.time := rfl

lemma binomialTick_time (m : BinomialAveragingPerceptron) (s : Nat) :
    (m.Tick s).time = m.time + s := rfl

/-- **C2.** `BinomialAveragingPerceptronTpl::Train(fb, y)` computes the
prediction from the pre-update weights and returns whether it equalled
`y`; it advances the clock by exactly one whether or not the prediction
was correct; and on a misprediction the resulting state is the
perceptron update (bias and every bundle feature bumped by `+1` when
`y` is true, `-1` when false, at the current time) followed by the
tick. -/
theorem binomialTrain_spec (m : BinomialAveragingPerceptron) (fb : List String) (y : Bool) :
    (m.Train fb y).1 = (y == m.Predict fb)
    ∧ (m.Train fb y).2.time = m.time + 1
    ∧ (m.Predict fb ≠ y → (m.Train fb y).2 = (m.Update fb y (m.Predict fb)).Tick 1) := by
  refine ⟨rfl, ?_, ?_⟩
  · unfold BinomialAveragingPerceptron.Train
    dsimp only
    split
    · rfl
    · split
      · rfl
      · rfl
  · intro h
    have h' : y ≠ decide (0 < m.Score fb) := fun hc => h (hc ▸ rfl)
    unfold BinomialAveragingPerceptron.Train
    dsimp only
    rw [if_pos h']
    rfl

/-- A concrete instantiation exercising the misprediction branch of
`binomialTrain_spec`. -/
theorem binomialTrain_spec_witness :
    (let m : BinomialAveragingPerceptron := ⟨⟨0, 0, 0⟩, [], 0, 0⟩
     m.Predict ["f"] ≠ true
       ∧ (m.Train ["f"] true).2 = (m.Update ["f"] true (m.Predict ["f"])).Tick 1) := by
  refine ⟨by decide, ?_⟩
  exact (binomialTrain_spec ⟨⟨0, 0, 0⟩, [], 0, 0⟩ ["f"] true).2.2 (by decide)

/-- **C6.** The margin behaviour of the binomial `Train`: with `c > 0`
and a correct prediction, the extra update fires exactly when the
truncating quotient `|score| / len(fb)` is below `c`; with `c = 0` a
correct prediction performs no update. -/
theorem binomialTrain_margin_spec (m : BinomialAveragingPerceptron) (fb : List String)
    (y : Bool) (hfb : fb ≠ []) :
    (y = m.Predict fb → 0 < m.c → (((m.Score fb).natAbs / fb.length : Nat) : Int) < m.c →
        (m.Train fb y).2 = (m.Update fb y (m.Predict fb)).Tick 1)
    ∧ (y = m.Predict fb → 0 < m.c → m.c ≤ (((m.Score fb).natAbs / fb.length : Nat) : Int) →
        (m.Train fb y).2 = m.Tick 1)
    ∧ (y = m.Predict fb → m.c = 0 → (m.Train fb y).2 = m.Tick 1) := by
  have hne : (fb ≠ []) := hfb
  refine ⟨?_, ?_, ?_⟩
  · intro hy hc hq
    unfold BinomialAveragingPerceptron.Train
    dsimp only
    rw [if_neg (by simpa using hy), if_pos ⟨by omega, hq⟩]
    rfl
  · intro hy hc hq
    unfold BinomialAveragingPerceptron.Train
    dsimp only
    rw [if_neg (by simpa using hy), if_neg (by rintro ⟨-, h⟩; omega)]
  · intro hy hc
    unfold BinomialAveragingPerceptron.Train
    dsimp only
    rw [if_neg (by simpa using hy), if_neg (by rintro ⟨h, -⟩; exact h hc)]

/-- A concrete instantiation exercising all three margin branches of
`binomialTrain_margin_spec` (on three classifiers differing in `c` and
bias). -/
theorem binomialTrain_margin_spec_witness :
    (let mLow : BinomialAveragingPerceptron := ⟨⟨1, 0, 0⟩, [], 2, 0⟩
     let mHigh : BinomialAveragingPerceptron := ⟨⟨5, 0, 0⟩, [], 2, 0⟩
     let mOff : BinomialAveragingPerceptron := ⟨⟨1, 0, 0⟩, [], 0, 0⟩
     ((true = mLow.Predict ["f"] ∧ 0 < mLow.c
         ∧ (((mLow.Score ["f"]).natAbs / (["f"] : List String).length : Nat) : Int) < mLow.c)
       ∧ (mLow.Train ["f"] true).2 = (mLow.Update ["f"] true (mLow.Predict ["f"])).Tick 1)
     ∧ ((true = mHigh.Predict ["f"] ∧ 0 < mHigh.c
         ∧ mHigh.c ≤ (((mHigh.Score ["f"]).natAbs / (["f"] : List String).length : Nat) : Int))
       ∧ (mHigh.Train ["f"] true).2 = mHigh.Tick 1)
     ∧ ((true = mOff.Predict ["f"] ∧ mOff.c = 0)
       ∧ (mOff.Train ["f"] true).2 = mOff.Tick 1)) := by
  refine ⟨⟨by decide, ?_⟩, ⟨by decide, ?_⟩, ⟨by decide, ?_⟩⟩
  · exact (binomialTrain_margin_spec ⟨⟨1, 0, 0⟩, [], 2, 0⟩ ["f"] true (by decide)).1
      (by decide) (by decide) (by decide)
  · exact (binomialTrain_margin_spec ⟨⟨5, 0, 0⟩, [], 2, 0⟩ ["f"] true (by decide)).2.1
      (by decide) (by decide) (by decide)
  · exact (binomialTrain_margin_spec ⟨⟨1, 0, 0⟩, [], 0, 0⟩ ["f"] true (by decide)).2.2
      (by decide) (by decide)

/-- **C5 (counterexample).** `GetAverage(0)` does not return `0`: the
source has no `time == 0` guard, so the division `summed_weight_ /
time_` is reached with divisor `0` (no rational value results). -/
theorem getAverage_zero_not_guarded_counterexample :
    initAveragedWeight.GetAverage 0 ≠ some 0 := by decide

/-- **C5 (amended).** `GetAverage(0)` is unguarded: for every averaging
weight, querying at time `0` freshens `time_` to `0` and then performs
the division with divisor `0`, which produces no numeric result
(modelled `none`) rather than `0`. -/
theorem getAverage_zero_unguarded (w : AvgWeight) : w.GetAverage 0 = none := rfl

/-- **C8.** Sparse-table miss semantics: the read-only accessor on an
absent feature returns the zero weight and leaves the table (hence its
size and every stored entry) unchanged, while the mutable accessor on
the same absent feature returns a zero weight after appending a fresh
zero entry, growing the size by exactly one. -/
theorem sparseTable_miss_spec (tbl : SparseInnerTable) (f : String)
    (habs : tbl.find? (fun p => p.1 == f) = none) :
    (sparseConstGet tbl f).1.weight = 0
    ∧ (sparseConstGet tbl f).2 = tbl
    ∧ (sparseMutGet tbl f).1.weight = 0
    ∧ (sparseMutGet tbl f).2.length = tbl.length + 1
    ∧ (sparseMutGet tbl f).2 = tbl ++ [(f, kDefaultWeight)] := by
  unfold sparseConstGet sparseMutGet
  rw [habs]
  simp [kDefaultWeight]

/-- A concrete instantiation of `sparseTable_miss_spec` at a table not
containing the probed feature. -/
theorem sparseTable_miss_spec_witness :
    (let tbl : SparseInnerTable := [("a", ⟨4, 7, 2⟩)]
     ((tbl.find? (fun p => p.1 == "b") = none)
       ∧ (sparseConstGet tbl "b").1.weight = 0
       ∧ (sparseConstGet tbl "b").2 = tbl
       ∧ (sparseMutGet tbl "b").1.weight = 0
       ∧ (sparseMutGet tbl "b").2.length = tbl.length + 1
       ∧ (sparseMutGet tbl "b").2 = tbl ++ [("b", kDefaultWeight)])) :=
  ⟨by decide, sparseTable_miss_spec [("a", ⟨4, 7, 2⟩)] "b" (by decide)⟩

/-- **C9.** Operation-sequencing errors are recoverable and leave the
wrapper untouched: `train` on an averaged (frozen) model and `write`
on a not-yet-averaged model both return the wrapper state unchanged
together with the operation-sequencing error. -/
theorem model_sequencing_spec (m : MultinomialModel) (fb : List Nat) (y : Nat) :
    (m.Averaged = true →
        m.train fb y = (m, Except.error OpError.alreadyAveraged))
    ∧ (m.Averaged = false →
        m.write = (m, Except.error OpError.mustAverageFirst)) := by
  constructor
  · intro h
    unfold MultinomialModel.train
    cases hap : m.aperceptron with
    | none => rfl
    | some ap =>
      exfalso
      rw [MultinomialModel.Averaged, hap] at h
      simp [Option.isNone] at h
  · intro h
    unfold MultinomialModel.write
    rw [h]
    rfl

/-- Concrete instantiations of `model_sequencing_spec`: a frozen model
rejecting `train` and an unfrozen model rejecting `write`. -/
theorem model_sequencing_spec_witness :
    (let frozen : MultinomialModel := ⟨none, some ⟨[], []⟩⟩
     let training : MultinomialModel := ⟨some ⟨[], [], 0, 0⟩, none⟩
     (frozen.Averaged = true
       ∧ frozen.train [0] 1 = (frozen, Except.error OpError.alreadyAveraged))
     ∧ (training.Averaged = false
       ∧ training.write = (training, Except.error OpError.mustAverageFirst))) := by
  refine ⟨⟨by decide, ?_⟩, ⟨by decide, ?_⟩⟩
  · exact (model_sequencing_spec ⟨none, some ⟨[], []⟩⟩ [0] 1).1 (by decide)
  · exact (model_sequencing_spec ⟨some ⟨[], [], 0, 0⟩, none⟩ [0] 1).2 (by decide)

lemma getD_set_self {α : Type} (l : List α) (i : Nat) (a d : α) (h : i < l.length) :
    (l.set i a).getD i d = a := by
  simp [List.getD, List.getElem?_set, h]

lemma getD_set_ne {α : Type} (l : List α) (i j : Nat) (a d : α) (h : i ≠ j) :
    (l.set i a).getD j d = l.getD j d := by
  simp [List.getD, List.getElem?_set, h]

lemma multinomialTick_time (m : MultinomialAveragingPerceptron) (s : Nat) :
    (m.Tick s).time = m.time + s := rfl

lemma multinomialUpdate_time (m : MultinomialAveragingPerceptron)
    (fb : List Nat) (y yhat : Nat) :
    (m.Update fb y yhat).time = m.time := rfl

/-- **C3.** `MultinomialAveragingPerceptronTpl::Train(fb, y)` computes
the score vector once (`Predict` is by definition the arg-max of
`Score`, the bias plus the bundle's inner tables), returns whether the
pre-update arg-max equalled `y`, advances the clock by exactly one
whether or not the prediction was correct, and on a misprediction the
resulting state is the `+1 / -1` update of `bias` and every bundle
feature's inner table at labels `y` / predicted, at the current time,
followed by the tick. -/
theorem multinomialTrain_spec (m : MultinomialAveragingPerceptron) (fb : List Nat) (y : Nat) :
    m.Predict fb = denseArgMax (m.Score fb)
    ∧ (m.Train fb y).1 = (y == m.Predict fb)
    ∧ (m.Train fb y).2.time = m.time + 1
    ∧ (m.Predict fb ≠ y → (m.Train fb y).2 = (m.Update fb y (m.Predict fb)).Tick 1) := by
  refine ⟨rfl, rfl, ?_, ?_⟩
  · unfold MultinomialAveragingPerceptron.Train
    dsimp only
    split
    · rfl
    · split
      · split
        · rfl
        · rfl
      · rfl
  · intro h
    have h' : y ≠ denseArgMax (m.Score fb) := fun hc => h (hc ▸ rfl)
    unfold MultinomialAveragingPerceptron.Train
    dsimp only
    rw [if_pos h']
    rfl

/-- A concrete instantiation exercising the misprediction branch of
`multinomialTrain_spec` (three labels, arg-max is label 0, trained
label 2). -/
theorem multinomialTrain_spec_witness :
    (let m : MultinomialAveragingPerceptron :=
      ⟨[⟨3, 0, 0⟩, ⟨1, 0, 0⟩, ⟨0, 0, 0⟩], [[⟨0, 0, 0⟩, ⟨0, 0, 0⟩, ⟨0, 0, 0⟩]], 0, 0⟩
     m.Predict [0] ≠ 2
       ∧ (m.Train [0] 2).2 = (m.Update [0] 2 (m.Predict [0])).Tick 1) := by
  refine ⟨by decide, ?_⟩
  exact (multinomialTrain_spec
    ⟨[⟨3, 0, 0⟩, ⟨1, 0, 0⟩, ⟨0, 0, 0⟩], [[⟨0, 0, 0⟩, ⟨0, 0, 0⟩, ⟨0, 0, 0⟩]], 0, 0⟩
    [0] 2).2.2.2 (by decide)

lemma AvgWeight.update_cancel (w : AvgWeight) (t : Nat) :
    (w.Update 1 t).Update (-1) t = w.Freshen t := by
  simp [AvgWeight.Update, AvgWeight.Freshen]

lemma denseUpdateAt_cancel (tbl : DenseInnerTable) (j : Nat) (t : Nat) :
    denseUpdateAt (denseUpdateAt tbl j 1 t) j (-1) t
      = tbl.set j ((tbl.getD j kDefaultWeight).Freshen t) := by
  unfold denseUpdateAt
  by_cases h : j < tbl.length
  · rw [getD_set_self tbl j _ kDefaultWeight h, List.set_set, AvgWeight.update_cancel]
  · simp [List.set_eq_of_length_le (Nat.le_of_not_lt h)]

lemma set_freshen_weight (inner : DenseInnerTable) (y t j : Nat) :
    ((inner.set y ((inner.getD y kDefaultWeight).Freshen t)).getD j kDefaultWeight).weight
      = (inner.getD j kDefaultWeight).weight := by
  by_cases hy : y < inner.length
  · by_cases hj : y = j
    · subst hj
      rw [getD_set_self _ _ _ _ hy]
      rfl
    · rw [getD_set_ne _ _ _ _ _ hj]
  · rw [List.set_eq_of_length_le (Nat.le_of_not_lt hy)]

lemma table_fold_cancel (fb : List Nat) (y t : Nat) :
    ∀ tbl : List DenseInnerTable,
    fb.foldl (fun tb f =>
        tb.set f (denseUpdateAt (denseUpdateAt (tb.getD f []) y 1 t) y (-1) t)) tbl
      = fb.foldl (fun tb f =>
        tb.set f ((tb.getD f []).set y (((tb.getD f []).getD y kDefaultWeight).Freshen t)))
        tbl := by
  induction fb with
  | nil => intro tbl; rfl
  | cons f fb ih =>
    intro tbl
    simp only [List.foldl_cons]
    rw [denseUpdateAt_cancel]
    exact ih _

lemma step_preserves_weight (tb : List DenseInnerTable) (f y t f' j : Nat) :
    (((tb.set f
        ((tb.getD f []).set y (((tb.getD f []).getD y kDefaultWeight).Freshen t))).getD f' []).getD
        j kDefaultWeight).weight
      = ((tb.getD f' []).getD j kDefaultWeight).weight := by
  by_cases hf : f < tb.length
  · by_cases hff : f = f'
    · subst hff
      rw [getD_set_self _ _ _ _ hf]
      exact set_freshen_weight _ _ _ _
    · rw [getD_set_ne _ _ _ _ _ hff]
  · rw [List.set_eq_of_length_le (Nat.le_of_not_lt hf)]

lemma fold_preserves_weight (fb : List Nat) (y t : Nat) :
    ∀ (tbl : List DenseInnerTable) (f' j : Nat),
    (((fb.foldl (fun tb f =>
        tb.set f ((tb.getD f []).set y (((tb.getD f []).getD y kDefaultWeight).Freshen t)))
        tbl).getD f' []).getD j kDefaultWeight).weight
      = ((tbl.getD f' []).getD j kDefaultWeight).weight := by
  induction fb with
  | nil => intro tbl f' j; rfl
  | cons f fb ih =>
    intro tbl f' j
    simp only [List.foldl_cons]
    rw [ih]
    exact step_preserves_weight tbl f y t f' j

/-- **C10.** `Update(fb, y, y)` with identical true and predicted
labels leaves every affected weight exactly as a pure freshen to the
current time would (the `+1` and `-1` at the same weight and time
cancel): the state equals `freshenAffected`, and in particular the
current value of every bias and table weight is unchanged.
Consequently, when the pre-update arg-max equals `y` (the only case in
which `Train`'s margin-triggered extra update can fire), `Train` leaves
every weight value unchanged. -/
theorem multinomialUpdate_cancel_spec (m : MultinomialAveragingPerceptron)
    (fb : List Nat) (y : Nat) :
    m.Update fb y y = freshenAffected m fb y
    ∧ (∀ j, ((m.Update fb y y).bias.getD j kDefaultWeight).weight
          = (m.bias.getD j kDefaultWeight).weight)
    ∧ (∀ f j, (((m.Update fb y y).table.getD f []).getD j kDefaultWeight).weight
          = ((m.table.getD f []).getD j kDefaultWeight).weight)
    ∧ (y = m.Predict fb →
        (∀ j, ((m.Train fb y).2.bias.getD j kDefaultWeight).weight
            = (m.bias.getD j kDefaultWeight).weight)
        ∧ (∀ f j, (((m.Train fb y).2.table.getD f []).getD j kDefaultWeight).weight
            = ((m.table.getD f []).getD j kDefaultWeight).weight)) := by
  have heq : m.Update fb y y = freshenAffected m fb y := by
    unfold MultinomialAveragingPerceptron.Update freshenAffected
    rw [denseUpdateAt_cancel m.bias y m.time, table_fold_cancel fb y m.time m.table]
  have hbw : ∀ j, ((m.Update fb y y).bias.getD j kDefaultWeight).weight
      = (m.bias.getD j kDefaultWeight).weight := by
    intro j
    rw [heq]
    exact set_freshen_weight m.bias y m.time j
  have htw : ∀ f j, (((m.Update fb y y).table.getD f []).getD j kDefaultWeight).weight
      = ((m.table.getD f []).getD j kDefaultWeight).weight := by
    intro f j
    rw [heq]
    exact fold_preserves_weight fb y m.time m.table f j
  refine ⟨heq, hbw, htw, ?_⟩
  intro hy
  have hy' : denseArgMax (m.Score fb) = y := by
    simpa [MultinomialAveragingPerceptron.Predict] using hy.symm
  have hbranch : (m.Train fb y).2 = (m.Update fb y y).Tick 1 ∨ (m.Train fb y).2 = m.Tick 1 := by
    unfold MultinomialAveragingPerceptron.Train
    dsimp only
    rw [hy', if_neg (fun hne => hne rfl)]
    split
    · split
      · exact Or.inl rfl
      · exact Or.inr rfl
    · exact Or.inr rfl
  constructor
  · intro j
    rcases hbranch with h | h
    · rw [h]
      exact hbw j
    · rw [h]
      rfl
  · intro f j
    rcases hbranch with h | h
    · rw [h]
      exact htw f j
    · rw [h]
      rfl

/-- A concrete instantiation of `multinomialUpdate_cancel_spec`, with
the margin constant nonzero and a correct prediction, exercising the
cancelling update and the weight-preservation of `Train`. -/
theorem multinomialUpdate_cancel_spec_witness :
    (let m : MultinomialAveragingPerceptron :=
      ⟨[⟨3, 0, 0⟩, ⟨1, 0, 0⟩, ⟨0, 0, 0⟩], [[⟨2, 0, 0⟩, ⟨0, 0, 0⟩, ⟨1, 0, 0⟩]], 1, 4⟩
     (0 = m.Predict [0])
       ∧ m.Update [0] 0 0 = freshenAffected m [0] 0
       ∧ ((m.Train [0] 0).2.bias.getD 0 kDefaultWeight).weight
           = (m.bias.getD 0 kDefaultWeight).weight
       ∧ (((m.Train [0] 0).2.table.getD 0 []).getD 0 kDefaultWeight).weight
           = ((m.table.getD 0 []).getD 0 kDefaultWeight).weight) := by
  refine ⟨by decide, ?_, ?_, ?_⟩
  · exact (multinomialUpdate_cancel_spec
      ⟨[⟨3, 0, 0⟩, ⟨1, 0, 0⟩, ⟨0, 0, 0⟩], [[⟨2, 0, 0⟩, ⟨0, 0, 0⟩, ⟨1, 0, 0⟩]], 1, 4⟩ [0] 0).1
  · exact ((multinomialUpdate_cancel_spec
      ⟨[⟨3, 0, 0⟩, ⟨1, 0, 0⟩, ⟨0, 0, 0⟩], [[⟨2, 0, 0⟩, ⟨0, 0, 0⟩, ⟨1, 0, 0⟩]], 1, 4⟩
      [0] 0).2.2.2 (by decide)).1 0
  · exact ((multinomialUpdate_cancel_spec
      ⟨[⟨3, 0, 0⟩, ⟨1, 0, 0⟩, ⟨0, 0, 0⟩], [[⟨2, 0, 0⟩, ⟨0, 0, 0⟩, ⟨1, 0, 0⟩]], 1, 4⟩
      [0] 0).2.2.2 (by decide)).2 0 0

/-- `std::max_element` as a left fold returns the first maximal
element: there is an index `k` bounded by the length whose entry is
the fold's result, every entry's value is at most the result's, and
every entry strictly before `k` has a strictly smaller value. -/
lemma foldl_max_spec {α : Type} (lt : α → α → Bool) (val : α → Int)
    (hlt : ∀ a b, lt a b = decide (val a < val b)) (x : α) (xs : List α) (d : α) :
    ∃ k, k < (x :: xs).length
      ∧ (x :: xs).getD k d = xs.foldl (fun best y => if lt best y then y else best) x
      ∧ (∀ j, j < (x :: xs).length →
          val ((x :: xs).getD j d)
            ≤ val (xs.foldl (fun best y => if lt best y then y else best) x))
      ∧ (∀ j, j < k →
          val ((x :: xs).getD j d)
            < val (xs.foldl (fun best y => if lt best y then y else best) x)) := by
  induction xs generalizing x with
  | nil =>
    refine ⟨0, by simp, rfl, ?_, ?_⟩
    · intro j hj
      have hj0 : j = 0 := by simpa using hj
      subst hj0
      exact le_refl _
    · intro j hj
      exact absurd hj (Nat.not_lt_zero j)
  | cons y ys ih =>
    by_cases hxy : val x < val y
    · have hstep : (if lt x y then y else x) = y := by rw [hlt]; simp [hxy]
      have hfold : (y :: ys).foldl (fun best y => if lt best y then y else best) x
          = ys.foldl (fun best y => if lt best y then y else best) y := by
        simp only [List.foldl_cons, hstep]
      obtain ⟨k, hk, hget, hmax, hfirst⟩ := ih y
      have h0 : val y ≤ val (ys.foldl (fun best y => if lt best y then y else best) y) := by
        have := hmax 0 (by simp)
        rwa [List.getD_cons_zero] at this
      refine ⟨k + 1, by simpa using hk, ?_, ?_, ?_⟩
      · rw [List.getD_cons_succ, hfold]
        exact hget
      · intro j hj
        rw [hfold]
        match j, hj with
        | 0, _ =>
          rw [List.getD_cons_zero]
          exact le_of_lt (lt_of_lt_of_le hxy h0)
        | j + 1, hj =>
          rw [List.getD_cons_succ]
          exact hmax j (by simpa using hj)
      · intro j hj
        rw [hfold]
        match j, hj with
        | 0, _ =>
          rw [List.getD_cons_zero]
          exact lt_of_lt_of_le hxy h0
        | j + 1, hj =>
          rw [List.getD_cons_succ]
          exact hfirst j (Nat.lt_of_succ_lt_succ hj)
    · have hstep : (if lt x y then y else x) = x := by rw [hlt]; simp [hxy]
      have hfold : (y :: ys).foldl (fun best y => if lt best y then y else best) x
          = ys.foldl (fun best y => if lt best y then y else best) x := by
        simp only [List.foldl_cons, hstep]
      obtain ⟨k, hk, hget, hmax, hfirst⟩ := ih x
      have hyx : val y ≤ val x := le_of_not_lt hxy
      have hx0 : val x ≤ val (ys.foldl (fun best y => if lt best y then y else best) x) := by
        have := hmax 0 (by simp)
        rwa [List.getD_cons_zero] at this
      match k, hk, hget, hfirst with
      | 0, hk, hget, hfirst =>
        rw [List.getD_cons_zero] at hget
        refine ⟨0, by simp, ?_, ?_, ?_⟩
        · rw [List.getD_cons_zero, hfold]
          exact hget
        · intro j hj
          rw [hfold]
          match j, hj with
          | 0, _ =>
            rw [List.getD_cons_zero]
            exact hx0
          | 1, _ =>
            rw [List.getD_cons_succ, List.getD_cons_zero]
            exact hyx.trans hx0
          | j + 2, hj =>
            rw [List.getD_cons_succ, List.getD_cons_succ]
            have hm := hmax (j + 1) (by simpa using Nat.lt_of_succ_lt_succ hj)
            rwa [List.getD_cons_succ] at hm
        · intro j hj
          exact absurd hj (Nat.not_lt_zero j)
      | k1 + 1, hk, hget, hfirst =>
        rw [List.getD_cons_succ] at hget
        have hf0 : val x < val (ys.foldl (fun best y => if lt best y then y else best) x) := by
          have := hfirst 0 (Nat.succ_pos k1)
          rwa [List.getD_cons_zero] at this
        refine ⟨k1 + 2, ?_, ?_, ?_, ?_⟩
        · have : k1 + 1 < ys.length + 1 := by simpa using hk
          simpa using Nat.succ_lt_succ this
        · rw [List.getD_cons_succ, List.getD_cons_succ, hfold]
          exact hget
        · intro j hj
          rw [hfold]
          match j, hj with
          | 0, _ =>
            rw [List.getD_cons_zero]
            exact hx0
          | 1, _ =>
            rw [List.getD_cons_succ, List.getD_cons_zero]
            exact hyx.trans hx0
          | j + 2, hj =>
            rw [List.getD_cons_succ, List.getD_cons_succ]
            have hm := hmax (j + 1) (by simpa using Nat.lt_of_succ_lt_succ hj)
            rwa [List.getD_cons_succ] at hm
        · intro j hj
          rw [hfold]
          match j, hj with
          | 0, _ =>
            rw [List.getD_cons_zero]
            exact hf0
          | 1, _ =>
            rw [List.getD_cons_succ, List.getD_cons_zero]
            exact lt_of_le_of_lt hyx hf0
          | j + 2, hj =>
            rw [List.getD_cons_succ, List.getD_cons_succ]
            have hf := hfirst (j + 1) (Nat.lt_of_succ_lt_succ hj)
            rwa [List.getD_cons_succ] at hf

lemma enum_getD (l : List AvgWeight) (j : Nat) (h : j < l.length) (d : Nat × AvgWeight) :
    l.enum.getD j d = (j, l.getD j kDefaultWeight) := by
  rw [List.getD_eq_getElem _ _ (by simpa [List.enum_length] using h), List.getElem_enum,
    List.getD_eq_getElem _ _ h]

/-- **C7.** Arg-max semantics of the inner tables: the dense
`ArgMax` returns an in-range index whose weight is maximal, with ties
broken by first occurrence in iteration order (strict `<` comparison,
first maximal element wins); the sparse `ArgMax` likewise returns the
key of the first maximal entry in iteration order; and on an empty
sparse table it returns the reserved empty-string place-keeper.
(Both functions are pure, so repeated calls on the same table
trivially return the same label.) -/
theorem argMax_spec (l : DenseInnerTable) (t : SparseInnerTable)
    (hl : l ≠ []) (ht : t ≠ []) :
    (denseArgMax l < l.length
      ∧ (∀ j, j < l.length →
          (l.getD j kDefaultWeight).weight ≤ (l.getD (denseArgMax l) kDefaultWeight).weight)
      ∧ (∀ j, j < denseArgMax l →
          (l.getD j kDefaultWeight).weight < (l.getD (denseArgMax l) kDefaultWeight).weight))
    ∧ (∃ k, k < t.length ∧ (t.getD k ("", kDefaultWeight)).1 = sparseArgMax t
        ∧ (∀ j, j < t.length →
            (t.getD j ("", kDefaultWeight)).2.weight ≤ (t.getD k ("", kDefaultWeight)).2.weight)
        ∧ (∀ j, j < k →
            (t.getD j ("", kDefaultWeight)).2.weight < (t.getD k ("", kDefaultWeight)).2.weight))
    ∧ sparseArgMax ([] : SparseInnerTable) = "" := by
  refine ⟨?_, ?_, rfl⟩
  · have hne : l.enum ≠ [] := by
      intro hc
      apply hl
      have hlen := congrArg List.length hc
      rw [List.enum_length] at hlen
      exact List.length_eq_zero.1 hlen
    obtain ⟨x, xs, henum⟩ := List.exists_cons_of_ne_nil hne
    obtain ⟨k, hk, hget, hmax, hfirst⟩ :=
      @foldl_max_spec (Nat × AvgWeight) (fun p q => decide (p.2.weight < q.2.weight))
        (fun p => p.2.weight) (fun a b => rfl) x xs (0, kDefaultWeight)
    have hlen2 : (x :: xs).length = l.length := by rw [← henum, List.enum_length]
    have hgd : ∀ j, j < l.length →
        (x :: xs).getD j (0, kDefaultWeight) = (j, l.getD j kDefaultWeight) := by
      intro j hj
      rw [← henum]
      exact enum_getD l j hj _
    have hkl : k < l.length := hlen2 ▸ hk
    have hgetk : (k, l.getD k kDefaultWeight)
        = xs.foldl (fun best y => if decide (best.2.weight < y.2.weight) then y else best) x := by
      rw [← hgd k hkl]
      exact hget
    have hr : denseArgMax l = k := by
      unfold denseArgMax maxElement
      rw [henum]
      dsimp only
      rw [← hgetk]
    rw [hr]
    refine ⟨hkl, ?_, ?_⟩
    · intro j hj
      have hm := hmax j (hlen2 ▸ hj)
      rw [hgd j hj, ← hgetk] at hm
      exact hm
    · intro j hj
      have hjl : j < l.length := hj.trans hkl
      have hf := hfirst j hj
      rw [hgd j hjl, ← hgetk] at hf
      exact hf
  · obtain ⟨x, xs, heq⟩ := List.exists_cons_of_ne_nil ht
    subst heq
    obtain ⟨k, hk, hget, hmax, hfirst⟩ :=
      @foldl_max_spec (String × AvgWeight) (fun p q => decide (p.2.weight < q.2.weight))
        (fun p => p.2.weight) (fun a b => rfl) x xs ("", kDefaultWeight)
    have hs : sparseArgMax (x :: xs)
        = (xs.foldl (fun best y => if decide (best.2.weight < y.2.weight) then y else best) x).1 :=
      rfl
    refine ⟨k, hk, ?_, ?_, ?_⟩
    · rw [hs, ← hget]
    · intro j hj
      have hm := hmax j hj
      rw [← hget] at hm
      exact hm
    · intro j hj
      have hf := hfirst j hj
      rw [← hget] at hf
      exact hf

/-- A concrete instantiation of `argMax_spec` with tied maxima in both
tables: the dense arg-max picks the first maximal index and the sparse
arg-max the first maximal key. -/
theorem argMax_spec_witness :
    ([(⟨1, 0, 0⟩ : AvgWeight), ⟨3, 0, 0⟩, ⟨3, 0, 0⟩] ≠ ([] : DenseInnerTable))
    ∧ ([("a", ⟨2, 0, 0⟩), ("b", ⟨2, 0, 0⟩)] ≠ ([] : SparseInnerTable))
    ∧ denseArgMax [⟨1, 0, 0⟩, ⟨3, 0, 0⟩, ⟨3, 0, 0⟩]
        < ([(⟨1, 0, 0⟩ : AvgWeight), ⟨3, 0, 0⟩, ⟨3, 0, 0⟩] : DenseInnerTable).length
    ∧ sparseArgMax ([] : SparseInnerTable) = "" :=
  ⟨by decide, by decide,
    (argMax_spec [⟨1, 0, 0⟩, ⟨3, 0, 0⟩, ⟨3, 0, 0⟩] [("a", ⟨2, 0, 0⟩), ("b", ⟨2, 0, 0⟩)]
      (by decide) (by decide)).1.1,
    (argMax_spec [⟨1, 0, 0⟩, ⟨3, 0, 0⟩, ⟨3, 0, 0⟩] [("a", ⟨2, 0, 0⟩), ("b", ⟨2, 0, 0⟩)]
      (by decide) (by decide)).2.2⟩

/-- A concrete instantiation of `GetAverage_eq_naive`: updates `+2` at
time 1 and `-1` at time 3, queried at time 5 (lazy sum 6, mean 6/5). -/
theorem GetAverage_eq_naive_witness :
    List.Pairwise (fun p q => p.2 ≤ q.2) [((2 : Int), 1), (-1, 3)]
    ∧ (∀ p ∈ [((2 : Int), 1), (-1, 3)], p.2 ≤ 5)
    ∧ 0 < 5
    ∧ (applyUpdates [((2 : Int), 1), (-1, 3)] initAveragedWeight).GetAverage 5
        = some ((naiveSum [((2 : Int), 1), (-1, 3)] 5 : Rat) / (5 : Rat)) :=
  ⟨by decide, by decide, by decide,
    GetAverage_eq_naive [((2 : Int), 1), (-1, 3)] 5 (by decide) (by decide) (by decide)⟩


lemma greedyPredict_fold_lengths {S F L : Type} (cl : SeqClassifier S F L)
    (tfunctor : List L → List F) (classifier : S) (evectors : List (List F)) :
    ∀ acc : List (List F) × List L,
    ((evectors.foldl
        (fun acc evector =>
          let cvector := tfunctor acc.2 ++ evector
          (acc.1 ++ [cvector], acc.2 ++ [cl.Predict classifier cvector])) acc).1.length
        = acc.1.length + evectors.length)
    ∧ ((evectors.foldl
        (fun acc evector =>
          let cvector := tfunctor acc.2 ++ evector
          (acc.1 ++ [cvector], acc.2 ++ [cl.Predict classifier cvector])) acc).2.length
        = acc.2.length + evectors.length) := by
  induction evectors with
  | nil => intro acc; exact ⟨rfl, rfl⟩
  | cons ev evs ih =>
    intro acc
    rw [List.foldl_cons]
    refine ⟨?_, ?_⟩
    · rw [(ih _).1]
      simp
      omega
    · rw [(ih _).2]
      simp
      omega

lemma GreedyPredict_lengths {S F L : Type} (cl : SeqClassifier S F L)
    (tfunctor : List L → List F) (classifier : S) (evectors : List (List F)) :
    (GreedyPredict cl tfunctor classifier evectors).1.length = evectors.length
    ∧ (GreedyPredict cl tfunctor classifier evectors).2.length = evectors.length := by
  have h := greedyPredict_fold_lengths cl tfunctor classifier evectors ([], [])
  exact ⟨by rw [GreedyPredict, h.1]; simp, by rw [GreedyPredict, h.2]; simp⟩

lemma zip3_filter_length (as bs : List Nat) (cs : List (List Nat))
    (h : bs.length ≤ cs.length) :
    ((as.zip (bs.zip cs)).filter (fun q => q.1 == q.2.1)).length
      = ((as.zip bs).filter (fun p => p.1 == p.2)).length := by
  induction as generalizing bs cs with
  | nil => rfl
  | cons a as ih =>
    match bs, cs, h with
    | [], _, _ => rfl
    | b :: bs, c :: cs, h =>
      rw [List.zip_cons_cons, List.zip_cons_cons, List.zip_cons_cons,
        List.filter_cons, List.filter_cons]
      by_cases hab : (a == b) = true
      · rw [if_pos hab, if_pos hab, List.length_cons, List.length_cons,
          ih bs cs (Nat.le_of_succ_le_succ h)]
      · rw [if_neg hab, if_neg hab, ih bs cs (Nat.le_of_succ_le_succ h)]

lemma greedy_fold_count (L : List (Nat × Nat × List Nat)) :
    ∀ (n : Nat) (s : MultinomialAveragingPerceptron),
    (L.foldl (fun acc t =>
        if t.1 = t.2.1 then (acc.1 + 1, acc.2)
        else (acc.1, multinomialSeqClassifier.Update acc.2 t.2.2 t.1 t.2.1)) (n, s)).1
      = n + (L.filter (fun q => q.1 == q.2.1)).length := by
  induction L with
  | nil => intro n s; simp
  | cons t L ih =>
    intro n s
    by_cases h : t.1 = t.2.1
    · rw [List.foldl_cons, if_pos h, ih (n + 1) s, List.filter_cons,
        if_pos (by simpa using h), List.length_cons]
      omega
    · rw [List.foldl_cons, if_neg h, ih n _, List.filter_cons,
        if_neg (by simpa using h)]

lemma greedy_fold_state (L : List (Nat × Nat × List Nat)) :
    ∀ (n : Nat) (s : MultinomialAveragingPerceptron),
    (L.foldl (fun acc t =>
        if t.1 = t.2.1 then (acc.1 + 1, acc.2)
        else (acc.1, multinomialSeqClassifier.Update acc.2 t.2.2 t.1 t.2.1)) (n, s)).2
      = (L.filter (fun q => !(q.1 == q.2.1))).foldl
          (fun s q => s.Update q.2.2 q.1 q.2.1) s := by
  induction L with
  | nil => intro n s; rfl
  | cons t L ih =>
    intro n s
    by_cases h : t.1 = t.2.1
    · rw [List.foldl_cons, if_pos h, ih, List.filter_cons, if_neg (by simpa using h)]
    · rw [List.foldl_cons, if_neg h, ih, List.filter_cons, if_pos (by simpa using h),
        List.foldl_cons]
      rfl

lemma update_fold_time (M : List (Nat × Nat × List Nat)) :
    ∀ s : MultinomialAveragingPerceptron,
    (M.foldl (fun s q => s.Update q.2.2 q.1 q.2.1) s).time = s.time := by
  induction M with
  | nil => intro s; rfl
  | cons q M ih =>
    intro s
    rw [List.foldl_cons, ih]
    rfl

lemma seqTick_time (s : MultinomialAveragingPerceptron) (n : Nat) :
    (multinomialSeqClassifier.Tick s n).time = s.time + n := rfl

/-- **C4.** `GreedyTrain` runs the single greedy prediction pass of
`GreedyPredict` (the same pass the inference overload delegates to),
returns the number of positions whose predicted label equals the true
label, applies the classifier's `Update(cvector, y, yhat)` exactly at
the mismatched positions — all at the shared time `m.time`, which the
updates never advance — and finally advances the shared clock once by
the sequence length. -/
theorem greedyTrain_spec (tfunctor : List Nat → List Nat)
    (evectors : List (List Nat)) (ys : List Nat)
    (m : MultinomialAveragingPerceptron)
    (_hlen : ys.length = evectors.length) :
    (GreedyTrain multinomialSeqClassifier tfunctor evectors ys m).1
      = ((ys.zip (GreedyPredictLabels multinomialSeqClassifier tfunctor m evectors)).filter
          (fun p => p.1 == p.2)).length
    ∧ (GreedyTrain multinomialSeqClassifier tfunctor evectors ys m).2.time
        = m.time + evectors.length
    ∧ (GreedyTrain multinomialSeqClassifier tfunctor evectors ys m).2
        = (((ys.zip ((GreedyPredict multinomialSeqClassifier tfunctor m evectors).2.zip
              (GreedyPredict multinomialSeqClassifier tfunctor m evectors).1)).filter
              (fun q => !(q.1 == q.2.1))).foldl
            (fun s q => s.Update q.2.2 q.1 q.2.1) m).Tick evectors.length := by
  have hle : (GreedyPredict multinomialSeqClassifier tfunctor m evectors).2.length
      ≤ (GreedyPredict multinomialSeqClassifier tfunctor m evectors).1.length := by
    rw [(GreedyPredict_lengths multinomialSeqClassifier tfunctor m evectors).1,
      (GreedyPredict_lengths multinomialSeqClassifier tfunctor m evectors).2]
  unfold GreedyTrain
  dsimp only
  refine ⟨?_, ?_, ?_⟩
  · rw [greedy_fold_count,
      zip3_filter_length ys
        (GreedyPredict multinomialSeqClassifier tfunctor m evectors).2
        (GreedyPredict multinomialSeqClassifier tfunctor m evectors).1 hle,
      Nat.zero_add]
    rfl
  · rw [greedy_fold_state, seqTick_time, update_fold_time]
  · rw [greedy_fold_state]
    rfl

/-- A concrete instantiation of `greedyTrain_spec` on a two-token
sequence (one position predicted correctly, one not). -/
theorem greedyTrain_spec_witness :
    (([0, 2] : List Nat).length = ([[0], [1]] : List (List Nat)).length)
    ∧ (GreedyTrain multinomialSeqClassifier (fun _ => []) [[0], [1]] [0, 2]
        ⟨[⟨1, 0, 0⟩, ⟨0, 0, 0⟩, ⟨0, 0, 0⟩],
         [[⟨0, 0, 0⟩, ⟨2, 0, 0⟩, ⟨0, 0, 0⟩], [⟨0, 0, 0⟩, ⟨0, 0, 0⟩, ⟨1, 0, 0⟩]], 0, 7⟩).2.time
        = (⟨[⟨1, 0, 0⟩, ⟨0, 0, 0⟩, ⟨0, 0, 0⟩],
            [[⟨0, 0, 0⟩, ⟨2, 0, 0⟩, ⟨0, 0, 0⟩], [⟨0, 0, 0⟩, ⟨0, 0, 0⟩, ⟨1, 0, 0⟩]], 0,
            7⟩ : MultinomialAveragingPerceptron).time
          + ([[0], [1]] : List (List Nat)).length
    ∧ (GreedyTrain multinomialSeqClassifier (fun _ => []) [[0], [1]] [0, 2]
        ⟨[⟨1, 0, 0⟩, ⟨0, 0, 0⟩, ⟨0, 0, 0⟩],
         [[⟨0, 0, 0⟩, ⟨2, 0, 0⟩, ⟨0, 0, 0⟩], [⟨0, 0, 0⟩, ⟨0, 0, 0⟩, ⟨1, 0, 0⟩]], 0, 7⟩).1
        = (([0, 2].zip (GreedyPredictLabels multinomialSeqClassifier (fun _ => [])
            ⟨[⟨1, 0, 0⟩, ⟨0, 0, 0⟩, ⟨0, 0, 0⟩],
             [[⟨0, 0, 0⟩, ⟨2, 0, 0⟩, ⟨0, 0, 0⟩], [⟨0, 0, 0⟩, ⟨0, 0, 0⟩, ⟨1, 0, 0⟩]], 0, 7⟩
            [[0], [1]])).filter (fun p => p.1 == p.2)).length := by
  refine ⟨by decide, ?_, ?_⟩
  · exact (greedyTrain_spec (fun _ => []) [[0], [1]] [0, 2]
      ⟨[⟨1, 0, 0⟩, ⟨0, 0, 0⟩, ⟨0, 0, 0⟩],
       [[⟨0, 0, 0⟩, ⟨2, 0, 0⟩, ⟨0, 0, 0⟩], [⟨0, 0, 0⟩, ⟨0, 0, 0⟩, ⟨1, 0, 0⟩]], 0, 7⟩
      (by decide)).2.1
  · exact (greedyTrain_spec (fun _ => []) [[0], [1]] [0, 2]
      ⟨[⟨1, 0, 0⟩, ⟨0, 0, 0⟩, ⟨0, 0, 0⟩],
       [[⟨0, 0, 0⟩, ⟨2, 0, 0⟩, ⟨0, 0, 0⟩], [⟨0, 0, 0⟩, ⟨0, 0, 0⟩, ⟨1, 0, 0⟩]], 0, 7⟩
      (by decide)).1
